import Mathlib

/-!
Shallow embedding of the `imin` image-resampling core (files `imin/__init__.py`,
`imin/rescale.py`, `imin/displace.py`) and proofs about it.

Conventions of the embedding:
* an image is a nested list `List (List (List ℤ))` exactly as in the Python
  source (rows of pixels, pixels being lists of integer channel values);
* Python real numbers (floats) are modelled as exact rationals `ℚ`;
* Python `int(q)` (truncation toward zero) is `pyInt`;
* Python `%` on a positive modulus (non-negative result) is `Int.emod`;
* the loosely typed `edge` / `method` parameters (`int | str`) are modelled as
  `ℤ ⊕ String`, and the dispatch equality tests mirror the source;
* a Python exception escaping a call is modelled with `Except PyErr`:
  `PyErr.zeroDivision` for `ZeroDivisionError` and `PyErr.valueError` for the
  `ValueError` the source raises on an unrecognized method;
* the `lru_cache` memoization wrappers (`_pixel`, `_pixel_1`) are pure caches of
  pure functions and are therefore dropped: a cached read is the plain read.
-/

unseal Rat.add Rat.mul Rat.inv Rat.sub

set_option maxRecDepth 8000

abbrev Pix := List ℤ

abbrev Img := List (List (List ℤ))

/-- Loosely typed Python argument (`int | str`) used for `edge` and `method`. -/
abbrev Arg := ℤ ⊕ String

/-- Python exceptions that the embedded functions can raise. -/
inductive PyErr where
  | zeroDivision
  | valueError
  deriving DecidableEq

deriving instance DecidableEq for Except

/-- Python `int(x)`: truncation toward zero of a real value. -/
def pyInt (q : ℚ) : ℤ := Int.tdiv q.num (q.den : ℤ)

/-- The corner-coordinate computation shared by the kernels:
`x0 = int(x) if x >= 0 else int(x) - 1` (see the NOTE comments in the source
about `int` on negative values). -/
def floorAdj (x : ℚ) : ℤ := if 0 ≤ x then pyInt x else pyInt x - 1

/-- `[*map(mul, pix, wt)]`: channel values scaled by a weight tuple; the result
is as long as the shorter operand, as with Python's `map` over two iterables. -/
def mulw : Pix → List ℚ → List ℚ
  | v :: tv, w :: tw => (v : ℚ) * w :: mulw tv tw
  | _, _ => []

/-- `[*map(_intaddup, a, b)]` with `_intaddup(a, b) = int(a + b)`. -/
def addup2 : List ℚ → List ℚ → Pix
  | a :: ta, b :: tb => pyInt (a + b) :: addup2 ta tb
  | _, _ => []

/-- `[*map(_intaddup, a, b, c)]` with `_intaddup(a, b, c) = int(a + b + c)`. -/
def addup3 : List ℚ → List ℚ → List ℚ → Pix
  | a :: ta, b :: tb, c :: tc => pyInt (a + b + c) :: addup3 ta tb tc
  | _, _, _ => []

/-- `[*map(_intaddup, a, b, c, d)]` with `_intaddup(a,b,c,d) = int(a+b+c+d)`. -/
def addup4 : List ℚ → List ℚ → List ℚ → List ℚ → Pix
  | a :: ta, b :: tb, c :: tc, d :: td => pyInt (a + b + c + d) :: addup4 ta tb tc td
  | _, _, _, _ => []

def strRepeatLit : String := "repeat"

def strWrapLit : String := "wrap"

def strNearestLit : String := "nearest"

def strBilinearLit : String := "bilinear"

def strBarycentricLit : String := "barycentric"

/-- `edge == 1 or edge == 'repeat'`. -/
def isRepeatEdge : Arg → Bool
  | Sum.inl n => n == 1
  | Sum.inr s => s == strRepeatLit

/-- `edge == 2 or edge == 'wrap'`. -/
def isWrapEdge : Arg → Bool
  | Sum.inl n => n == 2
  | Sum.inr s => s == strWrapLit

/-- `method == 0 or method == 'nearest'`. -/
def isNearestArg : Arg → Bool
  | Sum.inl n => n == 0
  | Sum.inr s => s == strNearestLit

/-- `method == 1 or method == 'bilinear'`. -/
def isBilinearArg : Arg → Bool
  | Sum.inl n => n == 1
  | Sum.inr s => s == strBilinearLit

/-- `method == 2 or method == 'barycentric'`. -/
def isBarycentricArg : Arg → Bool
  | Sum.inl n => n == 2
  | Sum.inr s => s == strBarycentricLit

/-- `Y = len(source_image)`. -/
def yOf (img : Img) : ℕ := img.length

/-- `X = len(source_image[0])`. -/
def xOf (img : Img) : ℕ := (img.headD []).length

/-- `Z = len(source_image[0][0])`. -/
def zOf (img : Img) : ℕ := ((img.headD []).headD []).length

/-- `source_image[cy][cx]` for indices already known to be in range. -/
def getPix (img : Img) (cy cx : ℤ) : Pix := (img.getD cy.toNat []).getD cx.toNat []

/-- The image shape invariant of the spec (§3): `Y` rows, each of width `X`,
every pixel a channel vector of length `Z`. -/
abbrev wfImage (img : Img) (X Y Z : ℕ) : Prop :=
  img.length = Y ∧ ∀ row ∈ img, row.length = X ∧ ∀ p ∈ row, p.length = Z

namespace imin

/-- `src` from `imin/__init__.py`: pixel reading with edge extrapolation
(nearest-neighbour interpolation for fractional coordinates). -/
def src (source_image : Img) (x y : ℚ) (edge : Arg) : Pix :=
  let Y := yOf source_image
  let X := xOf source_image
  let Z := zOf source_image
  if isRepeatEdge edge then
    let cx : ℤ := min ((X : ℤ) - 1) (max 0 (pyInt x))
    let cy : ℤ := min ((Y : ℤ) - 1) (max 0 (pyInt y))
    getPix source_image cy cx
  else if isWrapEdge edge then
    let cx : ℤ := pyInt x % (X : ℤ)
    let cy : ℤ := pyInt y % (Y : ℤ)
    getPix source_image cy cx
  else
    if x < 0 ∨ y < 0 ∨ x > (X : ℚ) - 1 ∨ y > (Y : ℚ) - 1 then
      List.replicate Z 0
    else
      getPix source_image (pyInt y) (pyInt x)

/-- The four corner weights of the bilinear kernel (`w00`, `w01`, `w10`, `w11`
in `blin`), with `x0`, `y0` computed as in the source and `x1 = x0 + 1`,
`y1 = y0 + 1`. -/
def blinWeights (x y : ℚ) : ℚ × ℚ × ℚ × ℚ :=
  let x0 := floorAdj x
  let y0 := floorAdj y
  (((x0 : ℚ) + 1 - x) * ((y0 : ℚ) + 1 - y),
   ((x0 : ℚ) + 1 - x) * (y - (y0 : ℚ)),
   (x - (x0 : ℚ)) * ((y0 : ℚ) + 1 - y),
   (x - (x0 : ℚ)) * (y - (y0 : ℚ)))

/-- `blin` from `imin/__init__.py`: bilinearly interpolated pixel. -/
def blin (source_image : Img) (x y : ℚ) (edge : Arg) : Pix :=
  let Z := zOf source_image
  let x0 := floorAdj x
  let y0 := floorAdj y
  if x = (x0 : ℚ) ∧ y = (y0 : ℚ) then
    src source_image (x0 : ℚ) (y0 : ℚ) edge
  else
    let w := blinWeights x y
    addup4 (mulw (src source_image (x0 : ℚ) (y0 : ℚ) edge) (List.replicate Z w.1))
      (mulw (src source_image (x0 : ℚ) ((y0 : ℚ) + 1) edge) (List.replicate Z w.2.1))
      (mulw (src source_image ((x0 : ℚ) + 1) (y0 : ℚ) edge) (List.replicate Z w.2.2.1))
      (mulw (src source_image ((x0 : ℚ) + 1) ((y0 : ℚ) + 1) edge) (List.replicate Z w.2.2.2))

/-- `Z_COLOR = Z if Z == 1 or Z == 3 else min(Z - 1, 3)`. -/
def zColor (Z : ℕ) : ℕ := if Z = 1 ∨ Z = 3 then Z else min (Z - 1) 3

/-- `abs(sum(p[:zc]) - sum(q[:zc]))`: the corner-sum difference used by the
barycentric diagonal heuristic. -/
def diffSum (p q : Pix) (zc : ℕ) : ℕ := ((p.take zc).sum - (q.take zc).sum).natAbs

/-- The two triangles of the ╲ (1–3 diagonal) split in `baryc`:
◣ 1-3-4 when `x - x1 < y - y1`, ◥ 1-2-3 otherwise. -/
def barycHalf13 (p1 p2 p3 p4 : Pix) (Z : ℕ) (x y : ℚ) (x1 y1 : ℤ) : Pix :=
  if x - (x1 : ℚ) < y - (y1 : ℚ) then
    let a := x - (x1 : ℚ)
    let b := (y1 : ℚ) + 1 - y
    let c := 1 - (a + b)
    addup3 (mulw p1 (List.replicate Z b)) (mulw p3 (List.replicate Z a))
      (mulw p4 (List.replicate Z c))
  else
    let a := (x1 : ℚ) + 1 - x
    let b := y - (y1 : ℚ)
    let c := 1 - (a + b)
    addup3 (mulw p1 (List.replicate Z a)) (mulw p3 (List.replicate Z b))
      (mulw p2 (List.replicate Z c))

/-- The two triangles of the ╱ (2–4 diagonal) split in `baryc`:
◤ 1-2-4 when `x - x1 < y3 - y`, ◢ 2-3-4 otherwise. -/
def barycHalf24 (p1 p2 p3 p4 : Pix) (Z : ℕ) (x y : ℚ) (x1 y1 : ℤ) : Pix :=
  if x - (x1 : ℚ) < (y1 : ℚ) + 1 - y then
    let a := x - (x1 : ℚ)
    let b := y - (y1 : ℚ)
    let c := 1 - (a + b)
    addup3 (mulw p1 (List.replicate Z c)) (mulw p2 (List.replicate Z a))
      (mulw p4 (List.replicate Z b))
  else
    let a := (x1 : ℚ) + 1 - x
    let b := (y1 : ℚ) + 1 - y
    let c := 1 - (a + b)
    addup3 (mulw p2 (List.replicate Z b)) (mulw p3 (List.replicate Z c))
      (mulw p4 (List.replicate Z a))

/-- `baryc` from `imin/__init__.py`: barycentrically interpolated pixel.
Corner 1 is `(x1, y1)`, corner 2 is `(x1+1, y1)`, corner 3 is `(x1+1, y1+1)`,
corner 4 is `(x1, y1+1)`; the diagonal is chosen by the strict comparison of
the two corner-sum differences. -/
def baryc (source_image : Img) (x y : ℚ) (edge : Arg) : Pix :=
  let Z := zOf source_image
  let zc := zColor Z
  let x1 := floorAdj x
  let y1 := floorAdj y
  let p1 := src source_image (x1 : ℚ) (y1 : ℚ) edge
  if x = (x1 : ℚ) ∧ y = (y1 : ℚ) then
    p1
  else
    let p2 := src source_image ((x1 : ℚ) + 1) (y1 : ℚ) edge
    let p3 := src source_image ((x1 : ℚ) + 1) ((y1 : ℚ) + 1) edge
    let p4 := src source_image (x1 : ℚ) ((y1 : ℚ) + 1) edge
    if diffSum p1 p3 zc < diffSum p2 p4 zc then
      barycHalf13 p1 p2 p3 p4 Z x y x1 y1
    else
      barycHalf24 p1 p2 p3 p4 Z x y x1 y1

/-- The corner-sum-difference tie: `abs(sum(p1[:zc]) - sum(p3[:zc]))` equals
`abs(sum(p2[:zc]) - sum(p4[:zc]))` at the corners `baryc` reads for `(x, y)`. -/
abbrev barycTie (source_image : Img) (x y : ℚ) (edge : Arg) : Prop :=
  diffSum (src source_image (floorAdj x : ℚ) (floorAdj y : ℚ) edge)
      (src source_image ((floorAdj x : ℚ) + 1) ((floorAdj y : ℚ) + 1) edge)
      (zColor (zOf source_image))
    = diffSum (src source_image ((floorAdj x : ℚ) + 1) (floorAdj y : ℚ) edge)
      (src source_image (floorAdj x : ℚ) ((floorAdj y : ℚ) + 1) edge)
      (zColor (zOf source_image))

/-- The barycentric evaluator with the square always folded along the ╱ (2–4)
diagonal: `baryc` with the diagonal test forced to its else branch. -/
def barycSplit24 (source_image : Img) (x y : ℚ) (edge : Arg) : Pix :=
  let Z := zOf source_image
  let x1 := floorAdj x
  let y1 := floorAdj y
  let p1 := src source_image (x1 : ℚ) (y1 : ℚ) edge
  if x = (x1 : ℚ) ∧ y = (y1 : ℚ) then
    p1
  else
    let p2 := src source_image ((x1 : ℚ) + 1) (y1 : ℚ) edge
    let p3 := src source_image ((x1 : ℚ) + 1) ((y1 : ℚ) + 1) edge
    let p4 := src source_image (x1 : ℚ) ((y1 : ℚ) + 1) edge
    barycHalf24 p1 p2 p3 p4 Z x y x1 y1

/-- Modelled from the spec: the barycentric evaluator with the square always
folded along the ╲ (1–3) diagonal, i.e. §4.4's "split the unit square along
the 1–3 diagonal" branch applied unconditionally (with the direct-hit clause).
It is used only to compare the claimed tie-break with the code's. -/
def barycSplit13Spec (source_image : Img) (x y : ℚ) (edge : Arg) : Pix :=
  let Z := zOf source_image
  let x1 := floorAdj x
  let y1 := floorAdj y
  let p1 := src source_image (x1 : ℚ) (y1 : ℚ) edge
  if x = (x1 : ℚ) ∧ y = (y1 : ℚ) then
    p1
  else
    let p2 := src source_image ((x1 : ℚ) + 1) (y1 : ℚ) edge
    let p3 := src source_image ((x1 : ℚ) + 1) ((y1 : ℚ) + 1) edge
    let p4 := src source_image (x1 : ℚ) ((y1 : ℚ) + 1) edge
    barycHalf13 p1 p2 p3 p4 Z x y x1 y1

/-- `pixel` from `imin/__init__.py`: method dispatch; raises `ValueError` on an
unrecognized method. -/
def pixel (source_image : Img) (x y : ℚ) (edge method : Arg) : Except PyErr Pix :=
  if isBilinearArg method then Except.ok (blin source_image x y edge)
  else if isBarycentricArg method then Except.ok (baryc source_image x y edge)
  else if isNearestArg method then Except.ok (src source_image x y edge)
  else Except.error PyErr.valueError

end imin

namespace rescale

/-- `_src` from `imin/rescale.py`: a verbatim copy of `imin.src` (the source
file duplicates the function body, with `source_image` for `image3d`). -/
def _src (source_image : Img) (x y : ℚ) (edge : Arg) : Pix :=
  imin.src source_image x y edge

/-- `_xlin` inside `rescale.bilinear`: x-linearly interpolated pixel of the
source row `y`. Note the source computes `x1 = int(x) + 1`, not `x0 + 1`. -/
def _xlin (source_image : Img) (x : ℚ) (y : ℤ) (edge : Arg) : Pix :=
  let Z := zOf source_image
  let x0 := floorAdj x
  let x1 := pyInt x + 1
  if x = (x0 : ℚ) then
    _src source_image (x0 : ℚ) (y : ℚ) edge
  else
    let w0 := (x1 : ℚ) - x
    let w1 := x - (x0 : ℚ)
    addup2 (mulw (_src source_image (x0 : ℚ) (y : ℚ) edge) (List.replicate Z w0))
      (mulw (_src source_image (x1 : ℚ) (y : ℚ) edge) (List.replicate Z w1))

/-- `_ylin` inside `rescale.bilinear`: y-linearly interpolated pixel of the
intermediate column `x` (same shape as `_xlin`, with `y1 = int(y) + 1`). -/
def _ylin (intermediate_image : Img) (x : ℤ) (y : ℚ) (edge : Arg) : Pix :=
  let Z := zOf intermediate_image
  let y0 := floorAdj y
  let y1 := pyInt y + 1
  if y = (y0 : ℚ) then
    _src intermediate_image (x : ℚ) (y0 : ℚ) edge
  else
    let w0 := (y1 : ℚ) - y
    let w1 := y - (y0 : ℚ)
    addup2 (mulw (_src intermediate_image (x : ℚ) (y0 : ℚ) edge) (List.replicate Z w0))
      (mulw (_src intermediate_image (x : ℚ) (y1 : ℚ) edge) (List.replicate Z w1))

/-- `bilinear` from `imin/rescale.py`: two-pass separable rescale. The source
computes `x_resize = (X - 1) / (XNEW - 1)` and `y_resize = (Y - 1) / (YNEW - 1)`
unconditionally before the passes, so `XNEW = 1` or `YNEW = 1` raises
`ZeroDivisionError`. -/
def bilinear (source_image : Img) (XNEW YNEW : ℕ) (edge : Arg) : Except PyErr Img :=
  let Y := yOf source_image
  let X := xOf source_image
  if XNEW = 1 ∨ YNEW = 1 then Except.error PyErr.zeroDivision
  else
    let x_resize : ℚ := ((X : ℚ) - 1) / ((XNEW : ℚ) - 1)
    let y_resize : ℚ := ((Y : ℚ) - 1) / ((YNEW : ℚ) - 1)
    let intermediate_image : Img :=
      if XNEW = X then source_image
      else
        (List.range Y).map fun y : ℕ =>
          (List.range XNEW).map fun x : ℕ =>
            _xlin source_image (x_resize * (x : ℚ)) (y : ℤ) edge
    if YNEW = Y then Except.ok intermediate_image
    else
      Except.ok ((List.range YNEW).map fun y : ℕ =>
        (List.range XNEW).map fun x : ℕ =>
          _ylin intermediate_image (x : ℤ) (y_resize * (y : ℚ)) edge)

/-- `_baryc` inside `rescale.barycentric`: a verbatim copy of `imin.baryc`
working through the memoized `_pixel` (dropped as pure). -/
def _baryc (source_image : Img) (x y : ℚ) (edge : Arg) : Pix :=
  imin.baryc source_image x y edge

/-- `barycentric` from `imin/rescale.py`: single-pass rescale. As in
`bilinear`, `XNEW = 1` or `YNEW = 1` raises `ZeroDivisionError` at the
`x_resize` / `y_resize` computation. -/
def barycentric (source_image : Img) (XNEW YNEW : ℕ) (edge : Arg) : Except PyErr Img :=
  let Y := yOf source_image
  let X := xOf source_image
  if XNEW = 1 ∨ YNEW = 1 then Except.error PyErr.zeroDivision
  else
    let x_resize : ℚ := ((X : ℚ) - 1) / ((XNEW : ℚ) - 1)
    let y_resize : ℚ := ((Y : ℚ) - 1) / ((YNEW : ℚ) - 1)
    Except.ok ((List.range YNEW).map fun y : ℕ =>
      (List.range XNEW).map fun x : ℕ =>
        _baryc source_image (x_resize * (x : ℚ)) (y_resize * (y : ℚ)) edge)

/-- `rescale` from `imin/rescale.py`: method dispatch; raises `ValueError` on
an unrecognized method. -/
def rescale (source_image : Img) (XNEW YNEW : ℕ) (edge method : Arg) : Except PyErr Img :=
  if isBilinearArg method then bilinear source_image XNEW YNEW edge
  else if isBarycentricArg method then barycentric source_image XNEW YNEW edge
  else Except.error PyErr.valueError

end rescale

namespace displace

/-- `_src` from `imin/displace.py`: a verbatim copy of `imin.src`. -/
def _src (image3d : Img) (x y : ℚ) (edge : Arg) : Pix :=
  imin.src image3d x y edge

/-- `_blin` inside `displace.bilinear`: a verbatim copy of `imin.blin` working
through the memoized `_pixel` (dropped as pure). -/
def _blin (source_image : Img) (x y : ℚ) (edge : Arg) : Pix :=
  imin.blin source_image x y edge

/-- `_baryc` inside `displace.barycentric`: a verbatim copy of `imin.baryc`. -/
def _baryc (source_image : Img) (x y : ℚ) (edge : Arg) : Pix :=
  imin.baryc source_image x y edge

/-- `bilinear` from `imin/displace.py`: one output pixel per `(x, y)` in the
output grid, read at the caller-supplied source coordinate `(fx x y, fy x y)`. -/
def bilinear (source_image : Img) (fx fy : ℕ → ℕ → ℚ) (XNEW YNEW : ℕ) (edge : Arg) : Img :=
  (List.range YNEW).map fun y =>
    (List.range XNEW).map fun x => _blin source_image (fx x y) (fy x y) edge

/-- `barycentric` from `imin/displace.py`. -/
def barycentric (source_image : Img) (fx fy : ℕ → ℕ → ℚ) (XNEW YNEW : ℕ) (edge : Arg) : Img :=
  (List.range YNEW).map fun y =>
    (List.range XNEW).map fun x => _baryc source_image (fx x y) (fy x y) edge

/-- `displace` from `imin/displace.py`: method dispatch; raises `ValueError`
on an unrecognized method. -/
def displace (source_image : Img) (fx fy : ℕ → ℕ → ℚ) (XNEW YNEW : ℕ)
    (edge method : Arg) : Except PyErr Img :=
  if isBilinearArg method then Except.ok (bilinear source_image fx fy XNEW YNEW edge)
  else if isBarycentricArg method then Except.ok (barycentric source_image fx fy XNEW YNEW edge)
  else Except.error PyErr.valueError

end displace

/-- A 2×2 one-channel gradient test image, `[[0, 100], [200, 255]]`. -/
def imgGrad : Img := [[[0], [100]], [[200], [255]]]

/-- A 2×2 one-channel image whose two diagonals have equal corner-sum
differences (`|0 - 0| = |100 - 100|`). -/
def imgTie : Img := [[[0], [100]], [[100], [0]]]

/-- A 1×1 one-channel image. -/
def imgOne : Img := [[[200]]]

/-- A 1×2 (one row, two columns) one-channel image. -/
def imgRow : Img := [[[7], [9]]]

/-! ### Basic arithmetic lemmas about the Python primitives -/

theorem pyInt_intCast (n : ℤ) : pyInt (n : ℚ) = n := by
  simp [pyInt, Rat.num_intCast, Rat.den_intCast]

theorem pyInt_natCast (n : ℕ) : pyInt (n : ℚ) = n := by
  have : ((n : ℕ) : ℚ) = ((n : ℤ) : ℚ) := by push_cast; ring
  rw [this, pyInt_intCast]

theorem pyInt_eq_floor {q : ℚ} (h : 0 ≤ q) : pyInt q = ⌊q⌋ := by
  rw [pyInt, Rat.floor_def, Int.tdiv_eq_ediv (Rat.num_nonneg.mpr h) (by positivity)]

theorem pyInt_neg (q : ℚ) : pyInt (-q) = -pyInt q := by
  simp [pyInt, Rat.num_neg_eq_neg_num, Rat.den_neg_eq_den, Int.neg_tdiv]

theorem pyInt_eq_ceil {q : ℚ} (h : q < 0) : pyInt q = ⌈q⌉ := by
  have h2 := pyInt_eq_floor (q := -q) (by linarith)
  rw [Int.floor_neg, pyInt_neg] at h2
  omega

theorem floorAdj_natCast (n : ℕ) : floorAdj (n : ℚ) = n := by
  rw [floorAdj, if_pos (by positivity), pyInt_natCast]

theorem floorAdj_int_add_half (c : ℤ) : floorAdj ((c : ℚ) + 1 / 2) = c := by
  by_cases hc : 0 ≤ (c : ℚ) + 1 / 2
  · rw [floorAdj, if_pos hc, pyInt_eq_floor hc, add_comm, Int.floor_add_int]
    norm_num
  · rw [floorAdj, if_neg hc, pyInt_eq_ceil (lt_of_not_ge hc), add_comm, Int.ceil_add_int]
    have h12 : ⌈(1 : ℚ) / 2⌉ = 1 := by
      rw [Int.ceil_eq_iff] <;> norm_num
    omega

/-! ### Shape plumbing -/

theorem headD_eq_getD_zero {α : Type} (l : List α) (d : α) : l.headD d = l.getD 0 d := by
  cases l <;> rfl

theorem wf_row {img : Img} {X Y Z : ℕ} (hwf : wfImage img X Y Z) {j : ℕ} (hj : j < Y) :
    (img.getD j []).length = X ∧ ∀ p ∈ img.getD j [], p.length = Z := by
  have hlen : j < img.length := by rw [hwf.1]; exact hj
  rw [List.getD_eq_getElem _ _ hlen]
  exact hwf.2 _ (List.getElem_mem hlen)

theorem yOf_eq {img : Img} {X Y Z : ℕ} (hwf : wfImage img X Y Z) : yOf img = Y := hwf.1

theorem xOf_eq {img : Img} {X Y Z : ℕ} (hwf : wfImage img X Y Z) (hY : 1 ≤ Y) :
    xOf img = X := by
  rw [xOf, headD_eq_getD_zero]
  exact (wf_row hwf (j := 0) (by omega)).1

theorem zOf_eq {img : Img} {X Y Z : ℕ} (hwf : wfImage img X Y Z) (hX : 1 ≤ X) (hY : 1 ≤ Y) :
    zOf img = Z := by
  obtain ⟨hrow, hpix⟩ := wf_row hwf (j := 0) (by omega)
  rw [zOf, headD_eq_getD_zero, headD_eq_getD_zero]
  have h0 : 0 < (img.getD 0 []).length := by omega
  rw [List.getD_eq_getElem _ _ h0]
  exact hpix _ (List.getElem_mem h0)

theorem getPix_length {img : Img} {X Y Z : ℕ} (hwf : wfImage img X Y Z) {cy cx : ℤ}
    (hy0 : 0 ≤ cy) (hy1 : cy < (Y : ℤ)) (hx0 : 0 ≤ cx) (hx1 : cx < (X : ℤ)) :
    (getPix img cy cx).length = Z := by
  obtain ⟨hrow, hpix⟩ := wf_row hwf (j := cy.toNat) (by omega)
  rw [getPix]
  have hcx : cx.toNat < (img.getD cy.toNat []).length := by rw [hrow]; omega
  rw [List.getD_eq_getElem _ _ hcx]
  exact hpix _ (List.getElem_mem hcx)

theorem getPix_eq_getElem {img : Img} (cy cx : ℕ) (hy : cy < img.length)
    (hx : cx < (img.getD cy []).length) :
    getPix img (cy : ℤ) (cx : ℤ) = (img.getD cy [])[cx] := by
  rw [getPix, Int.toNat_natCast, Int.toNat_natCast, List.getD_eq_getElem _ _ hx]

theorem mulw_length (p : Pix) (w : List ℚ) : (mulw p w).length = min p.length w.length := by
  induction p generalizing w with
  | nil => cases w <;> simp [mulw]
  | cons v tv ih =>
    cases w with
    | nil => simp [mulw]
    | cons w0 tw => simp [mulw, ih]; omega

theorem addup2_length (a b : List ℚ) : (addup2 a b).length = min a.length b.length := by
  induction a generalizing b with
  | nil => cases b <;> simp [addup2]
  | cons x ta ih =>
    cases b with
    | nil => simp [addup2]
    | cons y tb => simp [addup2, ih]; omega

theorem addup3_length (a b c : List ℚ) :
    (addup3 a b c).length = min a.length (min b.length c.length) := by
  induction a generalizing b c with
  | nil => cases b <;> cases c <;> simp [addup3]
  | cons x ta ih =>
    cases b with
    | nil => simp [addup3]
    | cons y tb =>
      cases c with
      | nil => simp [addup3]
      | cons z tc => simp [addup3, ih]; omega

theorem addup4_length (a b c d : List ℚ) :
    (addup4 a b c d).length = min a.length (min b.length (min c.length d.length)) := by
  induction a generalizing b c d with
  | nil => cases b <;> cases c <;> cases d <;> simp [addup4]
  | cons x ta ih =>
    cases b with
    | nil => simp [addup4]
    | cons y tb =>
      cases c with
      | nil => simp [addup4]
      | cons z tc =>
        cases d with
        | nil => simp [addup4]
        | cons u td => simp [addup4, ih]; omega

/-! ### EdgeSampler lemmas -/

theorem src_intCast_inbounds {img : Img} {X Y Z : ℕ} (hwf : wfImage img X Y Z)
    {i j : ℕ} (hi : i < X) (hj : j < Y) (e : Arg) :
    imin.src img (i : ℚ) (j : ℚ) e = getPix img (j : ℤ) (i : ℤ) := by
  have hX : 1 ≤ X := by omega
  have hY : 1 ≤ Y := by omega
  have hx := xOf_eq hwf hY
  have hy := yOf_eq (Z := Z) hwf
  have hcx : ((i : ℚ)) ≤ (X : ℚ) - 1 := by
    have : ((i : ℚ)) + 1 ≤ (X : ℚ) := by exact_mod_cast hi
    linarith
  have hcy : ((j : ℚ)) ≤ (Y : ℚ) - 1 := by
    have : ((j : ℚ)) + 1 ≤ (Y : ℚ) := by exact_mod_cast hj
    linarith
  have hni : ¬(((i : ℚ)) < 0 ∨ ((j : ℚ)) < 0 ∨ ((i : ℚ)) > (X : ℚ) - 1 ∨
      ((j : ℚ)) > (Y : ℚ) - 1) := by
    push_neg
    exact ⟨by positivity, by positivity, hcx, hcy⟩
  have hminx : min ((X : ℤ) - 1) (max 0 ((i : ℕ) : ℤ)) = ((i : ℕ) : ℤ) := by omega
  have hminy : min ((Y : ℤ) - 1) (max 0 ((j : ℕ) : ℤ)) = ((j : ℕ) : ℤ) := by omega
  have hmodx : ((i : ℕ) : ℤ) % ((X : ℕ) : ℤ) = ((i : ℕ) : ℤ) :=
    Int.emod_eq_of_lt (by omega) (by omega)
  have hmody : ((j : ℕ) : ℤ) % ((Y : ℕ) : ℤ) = ((j : ℕ) : ℤ) :=
    Int.emod_eq_of_lt (by omega) (by omega)
  cases hre : isRepeatEdge e with
  | true =>
    simp only [imin.src, hre, if_true, pyInt_natCast, hx, hy]
    rw [hminx, hminy]
  | false =>
    cases hwr : isWrapEdge e with
    | true =>
      simp only [imin.src, hre, hwr, Bool.false_eq_true, if_false, if_true, pyInt_natCast,
        hx, hy]
      rw [hmodx, hmody]
    | false =>
      simp only [imin.src, hre, hwr, Bool.false_eq_true, if_false, pyInt_natCast, hx, hy]
      rw [if_neg hni]

theorem src_length {img : Img} {X Y Z : ℕ} (hwf : wfImage img X Y Z)
    (hX : 1 ≤ X) (hY : 1 ≤ Y) (x y : ℚ) (e : Arg) :
    (imin.src img x y e).length = Z := by
  have hx := xOf_eq hwf hY
  have hy := yOf_eq (Z := Z) hwf
  have hz := zOf_eq hwf hX hY
  cases hre : isRepeatEdge e with
  | true =>
    simp only [imin.src, hre, if_true, hx, hy, hz]
    exact getPix_length hwf (by omega) (by omega) (by omega) (by omega)
  | false =>
    cases hwr : isWrapEdge e with
    | true =>
      simp only [imin.src, hre, hwr, Bool.false_eq_true, if_false, if_true, hx, hy, hz]
      exact getPix_length hwf (Int.emod_nonneg _ (by omega)) (Int.emod_lt_of_pos _ (by omega))
        (Int.emod_nonneg _ (by omega)) (Int.emod_lt_of_pos _ (by omega))
    | false =>
      simp only [imin.src, hre, hwr, Bool.false_eq_true, if_false, hx, hy, hz]
      by_cases hout : x < 0 ∨ y < 0 ∨ x > (X : ℚ) - 1 ∨ y > (Y : ℚ) - 1
      · rw [if_pos hout]
        exact List.length_replicate Z 0
      · rw [if_neg hout]
        push_neg at hout
        obtain ⟨h1, h2, h3, h4⟩ := hout
        have hfx : pyInt x = ⌊x⌋ := pyInt_eq_floor h1
        have hfy : pyInt y = ⌊y⌋ := pyInt_eq_floor h2
        refine getPix_length hwf ?_ ?_ ?_ ?_
        · rw [hfy]; exact Int.le_floor.mpr (by exact_mod_cast h2)
        · rw [hfy]
          have : ⌊y⌋ ≤ (Y : ℤ) - 1 := by
            have := Int.floor_le_floor h4
            rwa [show ((Y : ℚ) - 1) = (((Y : ℤ) - 1 : ℤ) : ℚ) by push_cast; ring,
              Int.floor_intCast] at this
          omega
        · rw [hfx]; exact Int.le_floor.mpr (by exact_mod_cast h1)
        · rw [hfx]
          have : ⌊x⌋ ≤ (X : ℤ) - 1 := by
            have := Int.floor_le_floor h3
            rwa [show ((X : ℚ) - 1) = (((X : ℤ) - 1 : ℤ) : ℚ) by push_cast; ring,
              Int.floor_intCast] at this
          omega

theorem src_edge_default {e : Arg} (h1 : isRepeatEdge e = false) (h2 : isWrapEdge e = false)
    (img : Img) (x y : ℚ) :
    imin.src img x y e = imin.src img x y (Sum.inl 0) := by
  simp only [imin.src, h1, h2, Bool.false_eq_true, if_false]
  rfl

theorem src_trunc {e : Arg} (he : isRepeatEdge e = true ∨ isWrapEdge e = true)
    (img : Img) (x y : ℚ) :
    imin.src img x y e = imin.src img (pyInt x : ℚ) (pyInt y : ℚ) e := by
  rcases he with he | he
  · simp only [imin.src, he, if_true, pyInt_intCast]
  · cases hre : isRepeatEdge e with
    | true => simp only [imin.src, hre, if_true, pyInt_intCast]
    | false =>
      simp only [imin.src, hre, he, Bool.false_eq_true, if_false, if_true, pyInt_intCast]

/-! ### Method-dispatch facts -/

theorem nearest_excl {m : Arg} (h : isNearestArg m = true) :
    isBilinearArg m = false ∧ isBarycentricArg m = false := by
  cases m with
  | inl n =>
    simp only [isNearestArg, beq_iff_eq] at h
    simp [isBilinearArg, isBarycentricArg, h]
  | inr s =>
    simp only [isNearestArg, beq_iff_eq] at h
    subst h
    decide

theorem barycentric_excl {m : Arg} (h : isBarycentricArg m = true) :
    isBilinearArg m = false := by
  cases m with
  | inl n =>
    simp only [isBarycentricArg, beq_iff_eq] at h
    simp [isBilinearArg, h]
  | inr s =>
    simp only [isBarycentricArg, beq_iff_eq] at h
    subst h
    decide

/-! ### Kernel lemmas -/

theorem blin_length {img : Img} {X Y Z : ℕ} (hwf : wfImage img X Y Z)
    (hX : 1 ≤ X) (hY : 1 ≤ Y) (x y : ℚ) (e : Arg) :
    (imin.blin img x y e).length = Z := by
  have hz := zOf_eq hwf hX hY
  have hs : ∀ a b : ℚ, (imin.src img a b e).length = Z := fun a b => src_length hwf hX hY a b e
  simp only [imin.blin]
  split
  · exact hs _ _
  · simp only [addup4_length, mulw_length, List.length_replicate, hs, hz]
    omega

theorem barycHalf13_length {p1 p2 p3 p4 : Pix} {Z : ℕ} (x y : ℚ) (x1 y1 : ℤ)
    (h1 : p1.length = Z) (h2 : p2.length = Z) (h3 : p3.length = Z) (h4 : p4.length = Z) :
    (imin.barycHalf13 p1 p2 p3 p4 Z x y x1 y1).length = Z := by
  rw [imin.barycHalf13]
  split <;> simp only [addup3_length, mulw_length, List.length_replicate, h1, h2, h3, h4] <;>
    omega

theorem barycHalf24_length {p1 p2 p3 p4 : Pix} {Z : ℕ} (x y : ℚ) (x1 y1 : ℤ)
    (h1 : p1.length = Z) (h2 : p2.length = Z) (h3 : p3.length = Z) (h4 : p4.length = Z) :
    (imin.barycHalf24 p1 p2 p3 p4 Z x y x1 y1).length = Z := by
  rw [imin.barycHalf24]
  split <;> simp only [addup3_length, mulw_length, List.length_replicate, h1, h2, h3, h4] <;>
    omega

theorem baryc_length {img : Img} {X Y Z : ℕ} (hwf : wfImage img X Y Z)
    (hX : 1 ≤ X) (hY : 1 ≤ Y) (x y : ℚ) (e : Arg) :
    (imin.baryc img x y e).length = Z := by
  have hz := zOf_eq hwf hX hY
  have hs : ∀ a b : ℚ, (imin.src img a b e).length = Z := fun a b => src_length hwf hX hY a b e
  simp only [imin.baryc]
  split
  · exact hs _ _
  · split
    · exact barycHalf13_length _ _ _ _ ((hs _ _).trans hz.symm) ((hs _ _).trans hz.symm)
        ((hs _ _).trans hz.symm) ((hs _ _).trans hz.symm) |>.trans hz
    · exact barycHalf24_length _ _ _ _ ((hs _ _).trans hz.symm) ((hs _ _).trans hz.symm)
        ((hs _ _).trans hz.symm) ((hs _ _).trans hz.symm) |>.trans hz

theorem blin_intCast {img : Img} {X Y Z : ℕ} (hwf : wfImage img X Y Z)
    {i j : ℕ} (hi : i < X) (hj : j < Y) (e : Arg) :
    imin.blin img (i : ℚ) (j : ℚ) e = getPix img (j : ℤ) (i : ℤ) := by
  simp only [imin.blin, floorAdj_natCast, Int.cast_natCast]
  rw [if_pos ⟨trivial, trivial⟩]
  exact src_intCast_inbounds hwf hi hj e

theorem baryc_intCast {img : Img} {X Y Z : ℕ} (hwf : wfImage img X Y Z)
    {i j : ℕ} (hi : i < X) (hj : j < Y) (e : Arg) :
    imin.baryc img (i : ℚ) (j : ℚ) e = getPix img (j : ℤ) (i : ℤ) := by
  simp only [imin.baryc, floorAdj_natCast, Int.cast_natCast]
  rw [if_pos ⟨trivial, trivial⟩]
  exact src_intCast_inbounds hwf hi hj e

theorem blin_edge_default {e : Arg} (h1 : isRepeatEdge e = false) (h2 : isWrapEdge e = false)
    (img : Img) (x y : ℚ) :
    imin.blin img x y e = imin.blin img x y (Sum.inl 0) := by
  simp only [imin.blin, src_edge_default h1 h2]

theorem baryc_edge_default {e : Arg} (h1 : isRepeatEdge e = false) (h2 : isWrapEdge e = false)
    (img : Img) (x y : ℚ) :
    imin.baryc img x y e = imin.baryc img x y (Sum.inl 0) := by
  simp only [imin.baryc, src_edge_default h1 h2]

theorem addup4_same (p : Pix) (Z : ℕ) (hp : p.length ≤ Z) (w1 w2 w3 w4 : ℚ)
    (hw : w1 + w2 + w3 + w4 = 1) :
    addup4 (mulw p (List.replicate Z w1)) (mulw p (List.replicate Z w2))
      (mulw p (List.replicate Z w3)) (mulw p (List.replicate Z w4)) = p := by
  induction p generalizing Z with
  | nil => cases Z <;> simp [mulw, addup4]
  | cons v tv ih =>
    cases Z with
    | zero => simp at hp
    | succ n =>
      simp only [List.replicate_succ, mulw, addup4]
      have hhead : pyInt ((v : ℚ) * w1 + (v : ℚ) * w2 + (v : ℚ) * w3 + (v : ℚ) * w4) = v := by
        have hsum : (v : ℚ) * w1 + (v : ℚ) * w2 + (v : ℚ) * w3 + (v : ℚ) * w4
            = (v : ℚ) * (w1 + w2 + w3 + w4) := by ring
        rw [hsum, hw, mul_one, pyInt_intCast]
      rw [hhead, ih n (by simpa using hp)]

/-! ### Rebuilding an image from exact pixel reads -/

theorem image_rebuild {img : Img} {X Y Z : ℕ} (hwf : wfImage img X Y Z) :
    ((List.range Y).map fun j : ℕ =>
        (List.range X).map fun i : ℕ => getPix img (j : ℤ) (i : ℤ))
      = img := by
  have hlen : img.length = Y := hwf.1
  have h1 : ((List.range Y).map fun j : ℕ => (List.range X).map fun i : ℕ =>
      getPix img (j : ℤ) (i : ℤ)).length = img.length := by
    simp [hlen]
  refine List.ext_getElem h1 ?_
  intro j hj1 hj2
  simp only [List.getElem_map, List.getElem_range]
  have hrow := hwf.2 _ (List.getElem_mem hj2)
  have h2 : ((List.range X).map fun i : ℕ => getPix img (j : ℤ) (i : ℤ)).length
      = img[j].length := by
    simp [hrow.1]
  refine List.ext_getElem h2 ?_
  intro i hi1 hi2
  simp only [List.getElem_map, List.getElem_range]
  rw [getPix, Int.toNat_natCast, Int.toNat_natCast, List.getD_eq_getElem _ _ hj2,
    List.getD_eq_getElem _ _ hi2]

/-! ### Lemmas about the rescale pass kernels -/

theorem xlin_length {img : Img} {X Y Z : ℕ} (hwf : wfImage img X Y Z)
    (hX : 1 ≤ X) (hY : 1 ≤ Y) (x : ℚ) (y : ℤ) (e : Arg) :
    (rescale._xlin img x y e).length = Z := by
  have hz := zOf_eq hwf hX hY
  simp only [rescale._xlin, rescale._src]
  split
  · exact src_length hwf hX hY _ _ e
  · simp only [addup2_length, mulw_length, List.length_replicate, src_length hwf hX hY, hz]
    omega

theorem ylin_length {img : Img} {X Y Z : ℕ} (hwf : wfImage img X Y Z)
    (hX : 1 ≤ X) (hY : 1 ≤ Y) (x : ℤ) (y : ℚ) (e : Arg) :
    (rescale._ylin img x y e).length = Z := by
  have hz := zOf_eq hwf hX hY
  simp only [rescale._ylin, rescale._src]
  split
  · exact src_length hwf hX hY _ _ e
  · simp only [addup2_length, mulw_length, List.length_replicate, src_length hwf hX hY, hz]
    omega

theorem xlin_edge_default {e : Arg} (h1 : isRepeatEdge e = false) (h2 : isWrapEdge e = false)
    (img : Img) (x : ℚ) (y : ℤ) :
    rescale._xlin img x y e = rescale._xlin img x y (Sum.inl 0) := by
  simp only [rescale._xlin, rescale._src, src_edge_default h1 h2]

theorem ylin_edge_default {e : Arg} (h1 : isRepeatEdge e = false) (h2 : isWrapEdge e = false)
    (img : Img) (x : ℤ) (y : ℚ) :
    rescale._ylin img x y e = rescale._ylin img x y (Sum.inl 0) := by
  simp only [rescale._ylin, rescale._src, src_edge_default h1 h2]

/-! ### Driver-level edge-default lemmas -/

theorem bilinear_rescale_edge_default {e : Arg} (h1 : isRepeatEdge e = false)
    (h2 : isWrapEdge e = false) (img : Img) (XNEW YNEW : ℕ) :
    rescale.bilinear img XNEW YNEW e = rescale.bilinear img XNEW YNEW (Sum.inl 0) := by
  simp only [rescale.bilinear, xlin_edge_default h1 h2, ylin_edge_default h1 h2]

theorem barycentric_rescale_edge_default {e : Arg} (h1 : isRepeatEdge e = false)
    (h2 : isWrapEdge e = false) (img : Img) (XNEW YNEW : ℕ) :
    rescale.barycentric img XNEW YNEW e = rescale.barycentric img XNEW YNEW (Sum.inl 0) := by
  simp only [rescale.barycentric, rescale._baryc, baryc_edge_default h1 h2]

theorem rescale_edge_default {e : Arg} (h1 : isRepeatEdge e = false)
    (h2 : isWrapEdge e = false) (img : Img) (XNEW YNEW : ℕ) (m : Arg) :
    rescale.rescale img XNEW YNEW e m = rescale.rescale img XNEW YNEW (Sum.inl 0) m := by
  simp only [rescale.rescale, bilinear_rescale_edge_default h1 h2,
    barycentric_rescale_edge_default h1 h2]

theorem displace_edge_default {e : Arg} (h1 : isRepeatEdge e = false)
    (h2 : isWrapEdge e = false) (img : Img) (fx fy : ℕ → ℕ → ℚ) (XNEW YNEW : ℕ) (m : Arg) :
    displace.displace img fx fy XNEW YNEW e m
      = displace.displace img fx fy XNEW YNEW (Sum.inl 0) m := by
  simp only [displace.displace, displace.bilinear, displace.barycentric, displace._blin,
    displace._baryc, blin_edge_default h1 h2, baryc_edge_default h1 h2]

/-! ### Identity rescale lemmas -/

theorem bilinear_rescale_identity {img : Img} {X Y Z : ℕ} (hwf : wfImage img X Y Z)
    (hX : 2 ≤ X) (hY : 2 ≤ Y) (e : Arg) :
    rescale.bilinear img X Y e = Except.ok img := by
  have hx := xOf_eq hwf (by omega)
  have hy := yOf_eq (Z := Z) hwf
  simp only [rescale.bilinear, hx, hy]
  rw [if_neg (by omega)]
  simp

theorem barycentric_rescale_identity {img : Img} {X Y Z : ℕ} (hwf : wfImage img X Y Z)
    (hX : 2 ≤ X) (hY : 2 ≤ Y) (e : Arg) :
    rescale.barycentric img X Y e = Except.ok img := by
  have hx := xOf_eq hwf (by omega)
  have hy := yOf_eq (Z := Z) hwf
  have hq : (2 : ℚ) ≤ (X : ℚ) := by exact_mod_cast hX
  have hq2 : (2 : ℚ) ≤ (Y : ℚ) := by exact_mod_cast hY
  have hdx : ((X : ℚ) - 1) / ((X : ℚ) - 1) = 1 := div_self (by linarith)
  have hdy : ((Y : ℚ) - 1) / ((Y : ℚ) - 1) = 1 := div_self (by linarith)
  simp only [rescale.barycentric, hx, hy, hdx, hdy, one_mul]
  rw [if_neg (by omega)]
  have hmaps : ∀ y ∈ List.range Y,
      ((List.range X).map fun x : ℕ => rescale._baryc img (x : ℚ) (y : ℚ) e)
        = (List.range X).map fun x : ℕ => getPix img (y : ℤ) (x : ℤ) := by
    intro y hy'
    refine List.map_congr_left ?_
    intro x hx'
    rw [rescale._baryc]
    exact baryc_intCast hwf (List.mem_range.mp hx') (List.mem_range.mp hy') e
  rw [List.map_congr_left hmaps, image_rebuild hwf]

/-! ### Shape lemmas -/

theorem wf_of_maps {f : ℕ → ℕ → Pix} {W H Z : ℕ}
    (hf : ∀ x y, x < W → y < H → (f x y).length = Z) :
    wfImage ((List.range H).map fun y : ℕ => (List.range W).map fun x : ℕ => f x y) W H Z := by
  constructor
  · simp
  · intro row hrow
    obtain ⟨y, hy, rfl⟩ := List.mem_map.mp hrow
    constructor
    · simp
    · intro p hp
      obtain ⟨x, hx, rfl⟩ := List.mem_map.mp hp
      exact hf x y (List.mem_range.mp hx) (List.mem_range.mp hy)

theorem bilinear_rescale_shape {img : Img} {X Y Z : ℕ} (hwf : wfImage img X Y Z)
    (hX : 1 ≤ X) (hY : 1 ≤ Y) (XNEW YNEW : ℕ) (e : Arg) (out : Img)
    (h : rescale.bilinear img XNEW YNEW e = Except.ok out) :
    wfImage out XNEW YNEW Z := by
  have hx := xOf_eq hwf hY
  have hy := yOf_eq (Z := Z) hwf
  simp only [rescale.bilinear, hx, hy] at h
  by_cases hguard : XNEW = 1 ∨ YNEW = 1
  · rw [if_pos hguard] at h
    exact absurd h (by simp)
  · rw [if_neg hguard] at h
    by_cases hxeq : XNEW = X
    · rw [if_pos hxeq] at h
      by_cases hyeq : YNEW = Y
      · rw [if_pos hyeq] at h
        have hout := Except.ok.inj h
        rw [← hout, hxeq, hyeq]
        exact hwf
      · rw [if_neg hyeq] at h
        have hout := Except.ok.inj h
        rw [← hout]
        exact wf_of_maps fun x y hxW hyH => ylin_length hwf hX hY _ _ e
    · rw [if_neg hxeq] at h
      have hinter : wfImage ((List.range Y).map fun y : ℕ => (List.range XNEW).map
          fun x : ℕ => rescale._xlin img (((X : ℚ) - 1) / ((XNEW : ℚ) - 1) * (x : ℚ))
            (y : ℤ) e) XNEW Y Z :=
        wf_of_maps fun x y hxW hyH => xlin_length hwf hX hY _ _ e
      by_cases hyeq : YNEW = Y
      · rw [if_pos hyeq] at h
        have hout := Except.ok.inj h
        rw [← hout, hyeq]
        exact hinter
      · rw [if_neg hyeq] at h
        have hout := Except.ok.inj h
        rw [← hout]
        exact wf_of_maps fun x y hxW hyH =>
          ylin_length hinter (by omega) (by omega) _ _ e

theorem barycentric_rescale_shape {img : Img} {X Y Z : ℕ} (hwf : wfImage img X Y Z)
    (hX : 1 ≤ X) (hY : 1 ≤ Y) (XNEW YNEW : ℕ) (e : Arg) (out : Img)
    (h : rescale.barycentric img XNEW YNEW e = Except.ok out) :
    wfImage out XNEW YNEW Z := by
  simp only [rescale.barycentric] at h
  by_cases hguard : XNEW = 1 ∨ YNEW = 1
  · rw [if_pos hguard] at h
    exact absurd h (by simp)
  · rw [if_neg hguard] at h
    have hout := Except.ok.inj h
    rw [← hout]
    exact wf_of_maps fun x y hxW hyH => by
      rw [rescale._baryc]
      exact baryc_length hwf hX hY _ _ e

/-! ## Claim theorems -/

/-- C1 (amended): calling `rescale` with `newWidth = 1` or `newHeight = 1`
propagates the divide-by-zero fault (`ZeroDivisionError`) raised at the
`x_resize` / `y_resize` computation, for both the Bilinear and Barycentric
methods; it does not fail with the typed argument-validation failure
(`ValueError`, the spec's `InvalidArgument`). -/
theorem rescale_dim_one_divide_fault (img : Img) (XNEW YNEW : ℕ) (e m : Arg)
    (hm : isBilinearArg m = true ∨ isBarycentricArg m = true)
    (hd : XNEW = 1 ∨ YNEW = 1) :
    rescale.rescale img XNEW YNEW e m = Except.error PyErr.zeroDivision := by
  by_cases hb : isBilinearArg m = true
  · simp only [rescale.rescale, hb, if_true, rescale.bilinear]
    rw [if_pos hd]
  · have hbc : isBarycentricArg m = true := by tauto
    simp only [rescale.rescale, hb, hbc, Bool.false_eq_true, if_false, if_true,
      rescale.barycentric]
    rw [if_pos hd]

/-- C1 counterexample: `rescale(imgGrad, 1, 3, Repeat, Bilinear)` raises
`ZeroDivisionError`, which is not the `ValueError` (`InvalidArgument`) failure
the claim requires. -/
theorem rescale_dim_one_not_invalid_argument :
    rescale.rescale imgGrad 1 3 (Sum.inl 1) (Sum.inl 1) = Except.error PyErr.zeroDivision ∧
    (Except.error PyErr.zeroDivision : Except PyErr Img) ≠ Except.error PyErr.valueError :=
  ⟨by decide, by decide⟩

/-- Witness for C1 at `XNEW = 3`, `YNEW = 1`, barycentric method. -/
theorem rescale_dim_one_divide_fault_wit :
    rescale.rescale imgGrad 3 1 (Sum.inl 2) (Sum.inl 2) = Except.error PyErr.zeroDivision :=
  rescale_dim_one_divide_fault imgGrad 3 1 (Sum.inl 2) (Sum.inl 2) (Or.inr (by decide))
    (Or.inr rfl)

/-- C2 (amended): in the barycentric kernel, whenever the two corner-sum
differences are exactly equal, the strict `<` comparison fails and the kernel
splits the unit square along the 2–4 diagonal (not the 1–3 diagonal), for
every source image, coordinate, and edge mode. -/
theorem baryc_tie_folds_24 (img : Img) (x y : ℚ) (e : Arg)
    (h : imin.barycTie img x y e) :
    imin.baryc img x y e = imin.barycSplit24 img x y e := by
  simp only [imin.baryc, imin.barycSplit24]
  by_cases hhit : x = ((floorAdj x : ℤ) : ℚ) ∧ y = ((floorAdj y : ℤ) : ℚ)
  · rw [if_pos hhit, if_pos hhit]
  · rw [if_neg hhit, if_neg hhit, if_neg (by rw [h]; exact lt_irrefl _)]

/-- C2 counterexample: on `imgTie` at `(1/4, 1/2)` the two corner-sum
differences tie (both are `0`), the kernel returns the 2–4-diagonal value
`[75]`, and the 1–3-diagonal split of the spec would give `[25]`. -/
theorem baryc_tie_not_13 :
    imin.barycTie imgTie (1/4) (1/2) (Sum.inl 1) ∧
    imin.baryc imgTie (1/4) (1/2) (Sum.inl 1) = [75] ∧
    imin.barycSplit13Spec imgTie (1/4) (1/2) (Sum.inl 1) = [25] ∧
    ([75] : Pix) ≠ [25] :=
  ⟨by decide, by decide, by decide, by decide⟩

/-- Witness for C2 on `imgTie` at `(1/4, 1/2)`. -/
theorem baryc_tie_folds_24_wit :
    imin.baryc imgTie (1/4) (1/2) (Sum.inl 1)
      = imin.barycSplit24 imgTie (1/4) (1/2) (Sum.inl 1) :=
  baryc_tie_folds_24 imgTie (1/4) (1/2) (Sum.inl 1) (by decide)

/-- C3 (amended): the nearest-neighbour method truncates `x` and `y` toward
zero (Python `int`), not toward negative infinity, before resolving the pixel
through the edge sampler: under Repeat and Wrap the cell read is the one at
`(int(x), int(y))`. -/
theorem nearest_truncates_toward_zero (img : Img) (x y : ℚ) (e : Arg)
    (he : isRepeatEdge e = true ∨ isWrapEdge e = true) :
    imin.pixel img x y e (Sum.inl 0)
      = Except.ok (imin.src img (pyInt x : ℚ) (pyInt y : ℚ) e) := by
  have h1 : isBilinearArg (Sum.inl 0) = false := by decide
  have h2 : isBarycentricArg (Sum.inl 0) = false := by decide
  have h3 : isNearestArg (Sum.inl 0) = true := by decide
  simp only [imin.pixel, h1, h2, h3, Bool.false_eq_true, if_false, if_true]
  rw [src_trunc he]

/-- C3 counterexample: on the 1×2 image `imgRow`, nearest at `x = -1/2` under
Wrap reads cell `int(-0.5) = 0` (value `[7]`), not the cell `floor(-0.5) = -1`
(which wraps to column 1, value `[9]`). -/
theorem nearest_negative_wrap_truncates :
    imin.pixel imgRow (-1/2) 0 (Sum.inl 2) (Sum.inl 0) = Except.ok [7] ∧
    imin.src imgRow ((-1 : ℤ) : ℚ) 0 (Sum.inl 2) = [9] ∧
    ([7] : Pix) ≠ [9] :=
  ⟨by decide, by decide, by decide⟩

/-- Witness for C3 at `x = 7/2`, `y = 1/2` under Repeat. -/
theorem nearest_truncates_toward_zero_wit :
    imin.pixel imgGrad (7/2) (1/2) (Sum.inl 1) (Sum.inl 0)
      = Except.ok (imin.src imgGrad (pyInt (7/2) : ℚ) (pyInt (1/2) : ℚ) (Sum.inl 1)) :=
  nearest_truncates_toward_zero imgGrad (7/2) (1/2) (Sum.inl 1) (Or.inl (by decide))

/-- C4 (amended): `rescale(img, W, H, edge, method)` with unchanged target size
returns the source image pixel for pixel, for both methods, whenever `W ≥ 2`
and `H ≥ 2`; for `W = 1` or `H = 1` the call instead raises
`ZeroDivisionError`. -/
theorem rescale_identity_from_two (img : Img) (X Y Z : ℕ) (hwf : wfImage img X Y Z)
    (hX : 2 ≤ X) (hY : 2 ≤ Y) (e m : Arg)
    (hm : isBilinearArg m = true ∨ isBarycentricArg m = true) :
    rescale.rescale img X Y e m = Except.ok img := by
  by_cases hb : isBilinearArg m = true
  · simp only [rescale.rescale, hb, if_true]
    exact bilinear_rescale_identity hwf hX hY e
  · have hbc : isBarycentricArg m = true := by tauto
    simp only [rescale.rescale, hb, hbc, Bool.false_eq_true, if_false, if_true]
    exact barycentric_rescale_identity hwf hX hY e

/-- C4 counterexample: for the 1×1 image `imgOne`, the unchanged-size call
`rescale(imgOne, 1, 1, Repeat, Bilinear)` raises `ZeroDivisionError` instead
of returning the image. -/
theorem rescale_identity_fails_dim_one :
    rescale.rescale imgOne 1 1 (Sum.inl 1) (Sum.inl 1) = Except.error PyErr.zeroDivision ∧
    rescale.rescale imgOne 1 1 (Sum.inl 1) (Sum.inl 1) ≠ Except.ok imgOne :=
  ⟨by decide, by decide⟩

/-- Witness for C4 on the 2×2 image `imgGrad` under Wrap, bilinear. -/
theorem rescale_identity_from_two_wit :
    wfImage imgGrad 2 2 1 ∧
    rescale.rescale imgGrad 2 2 (Sum.inl 2) (Sum.inl 1) = Except.ok imgGrad :=
  ⟨by decide, rescale_identity_from_two imgGrad 2 2 1 (by decide) (by omega) (by omega)
    (Sum.inl 2) (Sum.inl 1) (Or.inl rfl)⟩

/-- C5: for every source image, every edge argument, and every method in
{Nearest, Bilinear, Barycentric}, sampling at an exact integer in-bounds
coordinate returns the source pixel's channel vector unchanged. -/
theorem sample_integer_exact (img : Img) (X Y Z : ℕ) (hwf : wfImage img X Y Z)
    (i j : ℕ) (hi : i < X) (hj : j < Y) (e m : Arg)
    (hm : isNearestArg m = true ∨ isBilinearArg m = true ∨ isBarycentricArg m = true) :
    imin.pixel img (i : ℚ) (j : ℚ) e m = Except.ok (getPix img (j : ℤ) (i : ℤ)) := by
  rcases hm with hm | hm | hm
  · obtain ⟨h1, h2⟩ := nearest_excl hm
    simp only [imin.pixel, h1, h2, hm, Bool.false_eq_true, if_false, if_true]
    rw [src_intCast_inbounds hwf hi hj e]
  · simp only [imin.pixel, hm, if_true]
    rw [blin_intCast hwf hi hj e]
  · have h1 := barycentric_excl hm
    simp only [imin.pixel, h1, hm, Bool.false_eq_true, if_false, if_true]
    rw [baryc_intCast hwf hi hj e]

/-- Witness for C5 on `imgGrad` at `(1, 0)` under Wrap, barycentric. -/
theorem sample_integer_exact_wit :
    wfImage imgGrad 2 2 1 ∧
    imin.pixel imgGrad ((1 : ℕ) : ℚ) ((0 : ℕ) : ℚ) (Sum.inl 2) (Sum.inl 2)
      = Except.ok (getPix imgGrad ((0 : ℕ) : ℤ) ((1 : ℕ) : ℤ)) :=
  ⟨by decide, sample_integer_exact imgGrad 2 2 1 (by decide) 1 0 (by omega) (by omega)
    (Sum.inl 2) (Sum.inl 2) (Or.inr (Or.inr rfl))⟩

/-- C6 (amended): with the Zero edge mode (any edge argument other than
Repeat/Wrap), the Nearest method at any coordinate outside
`[0, W-1] × [0, H-1]` yields a channel vector of `Z` zeros; the Bilinear and
Barycentric kernels do not satisfy this for fractional out-of-bounds
coordinates whose neighborhood overlaps the image. -/
theorem zero_edge_oob_nearest_zeros (img : Img) (x y : ℚ) (e : Arg)
    (h1 : isRepeatEdge e = false) (h2 : isWrapEdge e = false)
    (ho : x < 0 ∨ y < 0 ∨ x > (xOf img : ℚ) - 1 ∨ y > (yOf img : ℚ) - 1) :
    imin.pixel img x y e (Sum.inl 0) = Except.ok (List.replicate (zOf img) 0) := by
  have hb : isBilinearArg (Sum.inl 0) = false := by decide
  have hbc : isBarycentricArg (Sum.inl 0) = false := by decide
  have hn : isNearestArg (Sum.inl 0) = true := by decide
  simp only [imin.pixel, hb, hbc, hn, Bool.false_eq_true, if_false, if_true]
  simp only [imin.src, h1, h2, Bool.false_eq_true, if_false]
  rw [if_pos ho]

/-- C6 counterexample: with the Zero edge mode, the Bilinear method at the
out-of-bounds coordinate `(-1/2, 0)` of the 1×1 image `imgOne` blends the
in-bounds neighbor and returns `[100]`, not the zero vector. -/
theorem zero_edge_oob_bilinear_nonzero :
    ((-1 : ℚ)/2 < 0) ∧
    imin.pixel imgOne (-1/2) 0 (Sum.inl 0) (Sum.inl 1) = Except.ok [100] ∧
    ([100] : Pix) ≠ List.replicate (zOf imgOne) 0 :=
  ⟨by decide, by decide, by decide⟩

/-- Witness for C6 at `(-1, 5)` with edge argument `0`. -/
theorem zero_edge_oob_nearest_zeros_wit :
    imin.pixel imgGrad (-1) 5 (Sum.inl 0) (Sum.inl 0)
      = Except.ok (List.replicate (zOf imgGrad) 0) :=
  zero_edge_oob_nearest_zeros imgGrad (-1) 5 (Sum.inl 0) (by decide) (by decide)
    (Or.inl (by decide))

/-- C7: `rescale(imgGrad, 3, 3, Repeat, Bilinear)` produces exactly the
two-pass separable result (row pass to width 3, then column pass to height 3),
whose center pixel `(1, 1)` is `138`, the truncated unweighted average
`int((0 + 100 + 200 + 255) / 4)`. -/
theorem rescale_bilinear_2x2_to_3x3_center :
    rescale.rescale imgGrad 3 3 (Sum.inl 1) (Sum.inl 1)
      = Except.ok [[[0], [50], [100]], [[100], [138], [177]], [[200], [227], [255]]] ∧
    getPix [[[0], [50], [100]], [[100], [138], [177]], [[200], [227], [255]]] 1 1 = [138] ∧
    ([138] : Pix) = [pyInt (((0 : ℚ) + 100 + 200 + 255) / 4)] :=
  ⟨by decide, by decide, by decide⟩

/-- C8: in the bilinear kernel, the four corner weights always sum to exactly
1, and when the four corner reads agree on a common channel vector the output
at the midpoint of the cell equals that vector exactly. -/
theorem blin_weights_sum_one_midpoint :
    (∀ x y : ℚ, (imin.blinWeights x y).1 + (imin.blinWeights x y).2.1
      + (imin.blinWeights x y).2.2.1 + (imin.blinWeights x y).2.2.2 = 1) ∧
    (∀ (img : Img) (X Y Z : ℕ), wfImage img X Y Z → 1 ≤ X → 1 ≤ Y →
      ∀ (e : Arg) (c d : ℤ) (p : Pix),
        imin.src img (c : ℚ) (d : ℚ) e = p →
        imin.src img (c : ℚ) ((d : ℚ) + 1) e = p →
        imin.src img ((c : ℚ) + 1) (d : ℚ) e = p →
        imin.src img ((c : ℚ) + 1) ((d : ℚ) + 1) e = p →
        imin.blin img ((c : ℚ) + 1/2) ((d : ℚ) + 1/2) e = p) := by
  constructor
  · intro x y
    simp only [imin.blinWeights]
    ring
  · intro img X Y Z hwf hX hY e c d p h00 h01 h10 h11
    have hfx : floorAdj ((c : ℚ) + 1/2) = c := floorAdj_int_add_half c
    have hfy : floorAdj ((d : ℚ) + 1/2) = d := floorAdj_int_add_half d
    have hplen : p.length = Z := by rw [← h00]; exact src_length hwf hX hY _ _ e
    have hz := zOf_eq hwf hX hY
    simp only [imin.blin, imin.blinWeights, hfx, hfy]
    rw [if_neg (by
      intro hcon
      have hcon1 := hcon.1
      have : (1 : ℚ) / 2 = 0 := by linarith
      norm_num at this)]
    rw [h00, h01, h10, h11]
    have w1 : ((c : ℚ) + 1 - ((c : ℚ) + 1/2)) * ((d : ℚ) + 1 - ((d : ℚ) + 1/2))
        = 1/4 := by ring
    have w2 : ((c : ℚ) + 1 - ((c : ℚ) + 1/2)) * (((d : ℚ) + 1/2) - (d : ℚ))
        = 1/4 := by ring
    have w3 : (((c : ℚ) + 1/2) - (c : ℚ)) * ((d : ℚ) + 1 - ((d : ℚ) + 1/2))
        = 1/4 := by ring
    have w4 : (((c : ℚ) + 1/2) - (c : ℚ)) * (((d : ℚ) + 1/2) - (d : ℚ))
        = 1/4 := by ring
    rw [w1, w2, w3, w4, hz]
    exact addup4_same p Z (le_of_eq hplen) _ _ _ _ (by norm_num)

/-- Witness for C8: the weight sum at `(1/3, 1/7)` and the midpoint read of the
uniform 1×1 image `imgOne` under Repeat. -/
theorem blin_weights_sum_one_midpoint_wit :
    ((imin.blinWeights (1/3) (1/7)).1 + (imin.blinWeights (1/3) (1/7)).2.1
      + (imin.blinWeights (1/3) (1/7)).2.2.1 + (imin.blinWeights (1/3) (1/7)).2.2.2 = 1) ∧
    imin.blin imgOne (((0 : ℤ) : ℚ) + 1/2) (((0 : ℤ) : ℚ) + 1/2) (Sum.inl 1) = [200] :=
  ⟨blin_weights_sum_one_midpoint.1 (1/3) (1/7),
   blin_weights_sum_one_midpoint.2 imgOne 1 1 1 (by decide) (by omega) (by omega)
     (Sum.inl 1) 0 0 [200] (by decide) (by decide) (by decide) (by decide)⟩

/-- C9: every image returned by `rescale` or `displace` has exactly `YNEW`
rows, each of width `XNEW`, and every pixel is a channel vector of the source
image's channel count `Z`. -/
theorem displace_rescale_shape (img : Img) (X Y Z : ℕ) (hwf : wfImage img X Y Z)
    (hX : 1 ≤ X) (hY : 1 ≤ Y) :
    (∀ (XNEW YNEW : ℕ) (e m : Arg) (out : Img),
        rescale.rescale img XNEW YNEW e m = Except.ok out → wfImage out XNEW YNEW Z) ∧
    (∀ (fx fy : ℕ → ℕ → ℚ) (XNEW YNEW : ℕ) (e m : Arg) (out : Img),
        displace.displace img fx fy XNEW YNEW e m = Except.ok out →
          wfImage out XNEW YNEW Z) := by
  constructor
  · intro XNEW YNEW e m out h
    by_cases hb : isBilinearArg m = true
    · simp only [rescale.rescale, hb, if_true] at h
      exact bilinear_rescale_shape hwf hX hY _ _ e out h
    · by_cases hbc : isBarycentricArg m = true
      · simp only [rescale.rescale, hb, hbc, Bool.false_eq_true, if_false, if_true] at h
        exact barycentric_rescale_shape hwf hX hY _ _ e out h
      · simp only [rescale.rescale, hb, hbc, Bool.false_eq_true, if_false] at h
        exact absurd h (by simp)
  · intro fx fy XNEW YNEW e m out h
    by_cases hb : isBilinearArg m = true
    · simp only [displace.displace, hb, if_true] at h
      rw [← Except.ok.inj h, displace.bilinear]
      exact wf_of_maps fun x y hxW hyH => by
        rw [displace._blin]
        exact blin_length hwf hX hY _ _ e
    · by_cases hbc : isBarycentricArg m = true
      · simp only [displace.displace, hb, hbc, Bool.false_eq_true, if_false, if_true] at h
        rw [← Except.ok.inj h, displace.barycentric]
        exact wf_of_maps fun x y hxW hyH => by
          rw [displace._baryc]
          exact baryc_length hwf hX hY _ _ e
      · simp only [displace.displace, hb, hbc, Bool.false_eq_true, if_false] at h
        exact absurd h (by simp)

/-- Witness for C9: the 3×3 bilinear rescale of `imgGrad` has 3 rows of width
3 with one channel per pixel. -/
theorem displace_rescale_shape_wit :
    wfImage [[[0], [50], [100]], [[100], [138], [177]], [[200], [227], [255]]] 3 3 1 :=
  (displace_rescale_shape imgGrad 2 2 1 (by decide) (by omega) (by omega)).1 3 3
    (Sum.inl 1) (Sum.inl 1) _ (by decide)

/-- C10: every edge argument other than `1`/`'repeat'` and `2`/`'wrap'` makes
the pixel sampler behave exactly as the Zero edge mode (out-of-range
coordinates give `Z` zeros, in-range integer coordinates give the exact
pixel), and the same default applies inside `rescale` and `displace`. -/
theorem unrecognized_edge_defaults_zero (e : Arg) (h1 : isRepeatEdge e = false)
    (h2 : isWrapEdge e = false) :
    (∀ (img : Img) (x y : ℚ), imin.src img x y e = imin.src img x y (Sum.inl 0)) ∧
    (∀ (img : Img) (x y : ℚ),
        (x < 0 ∨ y < 0 ∨ x > (xOf img : ℚ) - 1 ∨ y > (yOf img : ℚ) - 1) →
        imin.src img x y e = List.replicate (zOf img) 0) ∧
    (∀ (img : Img) (i j : ℕ), i < xOf img → j < yOf img →
        imin.src img (i : ℚ) (j : ℚ) e = getPix img (j : ℤ) (i : ℤ)) ∧
    (∀ (img : Img) (XNEW YNEW : ℕ) (m : Arg),
        rescale.rescale img XNEW YNEW e m = rescale.rescale img XNEW YNEW (Sum.inl 0) m) ∧
    (∀ (img : Img) (fx fy : ℕ → ℕ → ℚ) (XNEW YNEW : ℕ) (m : Arg),
        displace.displace img fx fy XNEW YNEW e m
          = displace.displace img fx fy XNEW YNEW (Sum.inl 0) m) := by
  refine ⟨src_edge_default h1 h2, ?_, ?_, rescale_edge_default h1 h2,
    displace_edge_default h1 h2⟩
  · intro img x y ho
    simp only [imin.src, h1, h2, Bool.false_eq_true, if_false]
    rw [if_pos ho]
  · intro img i j hi hj
    have hx1 : ((i : ℚ)) ≤ ((xOf img : ℚ)) - 1 := by
      have : ((i : ℚ)) + 1 ≤ ((xOf img : ℚ)) := by exact_mod_cast hi
      linarith
    have hy1 : ((j : ℚ)) ≤ ((yOf img : ℚ)) - 1 := by
      have : ((j : ℚ)) + 1 ≤ ((yOf img : ℚ)) := by exact_mod_cast hj
      linarith
    simp only [imin.src, h1, h2, Bool.false_eq_true, if_false, pyInt_natCast]
    rw [if_neg (by push_neg; exact ⟨by positivity, by positivity, hx1, hy1⟩)]

/-- Witness for C10 at the unrecognized edge argument `3`. -/
theorem unrecognized_edge_defaults_zero_wit :
    imin.src imgGrad (5 : ℚ) 0 (Sum.inl 3) = imin.src imgGrad 5 0 (Sum.inl 0) ∧
    rescale.rescale imgGrad 3 3 (Sum.inl 3) (Sum.inl 1)
      = rescale.rescale imgGrad 3 3 (Sum.inl 0) (Sum.inl 1) :=
  ⟨(unrecognized_edge_defaults_zero (Sum.inl 3) (by decide) (by decide)).1 imgGrad 5 0,
   (unrecognized_edge_defaults_zero (Sum.inl 3) (by decide) (by decide)).2.2.2.1 imgGrad
     3 3 (Sum.inl 1)⟩
